import Mathlib

/-!
A shallow embedding of the peer-id module (`src/index.js`).

Bytes are modelled as `List Nat` with every entry below 256.  The external
collaborators of the module are modelled as follows:

* the protobuf schema `protos/crypto.proto` (messages `PublicKey` and
  `PrivateKey`, each `required KeyType Type = 1; required bytes Data = 2;`
  with `enum KeyType { RSA = 0 }`) is not part of the sources; its wire
  format (varint field headers, varint enum value, length-delimited bytes)
  is modelled from the spec, which calls it a "two-field tagged binary
  message — Type (small integer enum, RSA = 0), Data (variable-length byte
  field)" serialized "via a minimal tag+length-prefixed binary schema";
* the multihash function is modelled as code byte `0x12` (sha2-256)
  followed by the digest length and the digest of an abstract hash
  function passed as an argument;
* the hex, base64 and base58 codecs (Node `Buffer` and the `bs58`
  package) are modelled concretely by the standard algorithms, which is
  the black-box contract the spec assumes for them;
* the RSA/DER provider (`node-forge`) is abstracted: key generation is
  modelled by passing the provider's DER outputs as arguments, and the
  chain `asn1.fromDer ∘ privateKeyFromAsn1 ∘ setPublicKey ∘
  publicKeyToAsn1 ∘ asn1.toDer` used by `createFromPrivKey` is a single
  abstract derivation function `List Nat → Option (List Nat)`.

Failure (a thrown exception in JavaScript) is modelled by `Option.none`;
the spec names the failure of the key codec FormatError, the failure of
the textual codecs EncodingError and the failure of the DER provider
DecodeError, and each modelled operation has exactly one of those failure
modes, so no information is lost by collapsing them to `none`.
-/

/-- `ValidBytes b` says every entry of the modelled byte string fits in one octet. -/
def ValidBytes (b : List Nat) : Prop := ∀ x ∈ b, x < 256

instance : DecidablePred ValidBytes := fun b =>
  inferInstanceAs (Decidable (∀ x ∈ b, x < 256))

/-- Protobuf base-128 varint encoding, least significant group first.  The
first argument is fuel so that the definition is structurally recursive and
reduces inside the kernel; the fuel is always at least the encoded number,
which makes the `fuel = 0` row (then forced to encode `0`) agree with the
general row. -/
def varintEncodeAux : Nat → Nat → List Nat
  | 0, n => [n % 128]
  | fuel + 1, n => if n < 128 then [n] else (n % 128 + 128) :: varintEncodeAux fuel (n / 128)

/-- Protobuf base-128 varint encoding of a natural number. -/
def varintEncode (n : Nat) : List Nat := varintEncodeAux n n

/-- Protobuf varint parsing: returns the decoded value and the remaining
input, and `none` on truncated input (a continuation byte at the end). -/
def parseVarint : List Nat → Option (Nat × List Nat)
  | [] => none
  | b :: rest =>
    if b < 128 then some (b, rest)
    else
      match parseVarint rest with
      | some (v, r) => some (b - 128 + 128 * v, r)
      | none => none

/-- The two key directions of the codec, the `'Public'` / `'Private'`
strings that `keyMarshal` branches on in `src/index.js`. -/
inductive KeyDir
  | Public
  | Private
deriving DecidableEq

/-- A decoded key record: the `Type` enum value (0 = RSA, stored here as
`keyType`) and the `Data` payload of the protobuf message. -/
structure KeyRecord where
  keyType : Nat
  Data : List Nat
deriving DecidableEq

/-- Wire encoding shared by the `PublicKey` and `PrivateKey` protobuf
messages: field 1 header `0x08` (field 1, varint), the `Type` enum value as
a varint, field 2 header `0x12` (field 2, length-delimited), the payload
length as a varint, then the payload bytes. -/
def pbKeyMessageEncode (ty : Nat) (data : List Nat) : List Nat :=
  8 :: varintEncode ty ++ 18 :: varintEncode data.length ++ data

/-- Decoder for the shared `PublicKey`/`PrivateKey` wire format.  Modelled
from the spec: it fails (FormatError) on truncated input, on a field that
violates the tag+length schema, and leaves the `Type` range check to
`keyUnmarshal`. -/
def pbKeyMessageDecode (input : List Nat) : Option (Nat × List Nat) :=
  match input with
  | [] => none
  | h1 :: r1 =>
    if h1 = 8 then
      match parseVarint r1 with
      | none => none
      | some (ty, r2) =>
        match r2 with
        | [] => none
        | h2 :: r3 =>
          if h2 = 18 then
            match parseVarint r3 with
            | none => none
            | some (len, r4) => if r4.length = len then some (ty, r4) else none
          else none
    else none

/-- `keyMarshal` of `src/index.js` (lines 68–87): wraps the payload in a
`{Type: RSA, Data: data}` protobuf record, using the `PublicKey` message
for `'Public'` and the `PrivateKey` message for `'Private'`.  The two
messages of `protos/crypto.proto` have the identical two-field schema, so
both branches produce the same wire bytes. -/
def keyMarshal (data : List Nat) (t : KeyDir) : List Nat :=
  match t with
  | KeyDir.Public => pbKeyMessageEncode 0 data
  | KeyDir.Private => pbKeyMessageEncode 0 data

/-- `keyUnmarshal` of `src/index.js` (lines 63–65), `pbCrypto.PrivateKey.decode`.
Modelled from the spec: decode "fails with FormatError on truncated input,
on a field that violates the tag+length schema, or on an unrecognized type
tag", so a `Type` value other than `RSA = 0` is rejected. -/
def keyUnmarshal (key : List Nat) : Option KeyRecord :=
  match pbKeyMessageDecode key with
  | none => none
  | some (ty, data) => if ty = 0 then some { keyType := 0, Data := data } else none

/-- The base64 alphabet (RFC 4648), as used by Node `Buffer` base64. -/
def b64AlphabetChars : List Char :=
  "ABCDEFGHIJKLMNOPQRSTUVWXYZabcdefghijklmnopqrstuvwxyz0123456789+/".toList

/-- The base64 character of a 6-bit value. -/
def b64CharOf (n : Nat) : Char := b64AlphabetChars.getD n '='

/-- The 6-bit value of a base64 character, `none` for characters outside
the alphabet (in particular for the padding character). -/
def b64CharVal (c : Char) : Option Nat := b64AlphabetChars.findIdx? (fun a => a == c)

/-- Base64 encoding of a byte string: three bytes become four characters,
with `'='` padding for a final group of one or two bytes. -/
def b64encodeList : List Nat → List Char
  | [] => []
  | [a] => [b64CharOf (a / 4), b64CharOf (a % 4 * 16), '=', '=']
  | [a, b] => [b64CharOf (a / 4), b64CharOf (a % 4 * 16 + b / 16), b64CharOf (b % 16 * 4), '=']
  | a :: b :: d :: rest =>
    b64CharOf (a / 4) :: b64CharOf (a % 4 * 16 + b / 16) ::
      b64CharOf (b % 16 * 4 + d / 64) :: b64CharOf (d % 64) :: b64encodeList rest

/-- Base64 encoding, producing a string. -/
def b64encode (b : List Nat) : String := String.mk (b64encodeList b)

/-- Base64 decoding of a character list: groups of four characters, the
last group possibly padded with one or two `'='`. -/
def b64decodeList : List Char → Option (List Nat)
  | [] => some []
  | w :: x :: y :: z :: rest =>
    match b64CharVal w, b64CharVal x with
    | some s1, some s2 =>
      if y = '=' ∧ z = '=' ∧ rest = [] then some [s1 * 4 + s2 / 16]
      else if z = '=' ∧ rest = [] then
        match b64CharVal y with
        | some s3 => some [s1 * 4 + s2 / 16, s2 % 16 * 16 + s3 / 4]
        | none => none
      else
        match b64CharVal y, b64CharVal z, b64decodeList rest with
        | some s3, some s4, some bs =>
          some ((s1 * 4 + s2 / 16) :: (s2 % 16 * 16 + s3 / 4) :: (s3 % 4 * 64 + s4) :: bs)
        | _, _, _ => none
    | _, _ => none
  | _ => none

/-- Base64 decoding of a string.  This models Node `Buffer`'s base64
decoding on well-formed base64 text, which is the only way the module uses
it (the strings it decodes are base64 encodings it produced itself, or
caller-supplied key records the spec requires to be well-formed). -/
def b64decode (s : String) : Option (List Nat) := b64decodeList s.toList

/-- The lowercase hex digit of a value below 16, as produced by
`Buffer.toString` with encoding `'hex'`. -/
def hexCharOf (n : Nat) : Char := "0123456789abcdef".toList.getD n '0'

/-- Hex encoding of a byte string: two lowercase digits per byte. -/
def hexEncodeList : List Nat → List Char
  | [] => []
  | x :: rest => hexCharOf (x / 16) :: hexCharOf (x % 16) :: hexEncodeList rest

/-- Hex encoding producing a string (`Buffer.toString('hex')`). -/
def hexEncode (b : List Nat) : String := String.mk (hexEncodeList b)

/-- The value of one hex digit, accepting both cases; `none` for a
character that is not a hex digit. -/
def hexDigitVal (c : Char) : Option Nat :=
  if '0' ≤ c ∧ c ≤ '9' then some (c.toNat - 48)
  else if 'a' ≤ c ∧ c ≤ 'f' then some (c.toNat - 87)
  else if 'A' ≤ c ∧ c ≤ 'F' then some (c.toNat - 55)
  else none

/-- Hex decoding of a character list: pairs of digits; fails (the spec's
EncodingError) on an invalid digit or an odd number of digits. -/
def hexDecodeList : List Char → Option (List Nat)
  | [] => some []
  | [_] => none
  | a :: b :: rest =>
    match hexDigitVal a, hexDigitVal b, hexDecodeList rest with
    | some x, some y, some r => some ((x * 16 + y) :: r)
    | _, _, _ => none

/-- Hex decoding of a string (`new Buffer(str, 'hex')` under the codec
contract the spec assumes: EncodingError on invalid hex digits). -/
def hexDecode (s : String) : Option (List Nat) := hexDecodeList s.toList

/-- Little-endian digits of `n` in base `b`, fuel-driven so that it
reduces inside the kernel; with fuel at least `n` it agrees with
`Nat.digits b` for `2 ≤ b` (proved below). -/
def digitsLEAux (b : Nat) : Nat → Nat → List Nat
  | _, 0 => []
  | 0, _ + 1 => []
  | fuel + 1, n + 1 => (n + 1) % b :: digitsLEAux b fuel ((n + 1) / b)

/-- Little-endian digits of `n` in base `b` (kernel-computable). -/
def digitsLE (b n : Nat) : List Nat := digitsLEAux b n n

/-- The number denoted by a byte string read big-endian, as the base-x
conversion loop of `bs58` computes it. -/
def bytesToNat (b : List Nat) : Nat := Nat.ofDigits 256 b.reverse

/-- The base58 alphabet of Bitcoin/`bs58` (no `0`, `O`, `I`, `l`). -/
def b58AlphabetChars : List Char :=
  "123456789ABCDEFGHJKLMNPQRSTUVWXYZabcdefghijkmnopqrstuvwxyz".toList

/-- The base58 character of a value below 58. -/
def b58CharOf (n : Nat) : Char := b58AlphabetChars.getD n '1'

/-- The value of a base58 character, `none` outside the alphabet. -/
def b58CharVal (c : Char) : Option Nat := b58AlphabetChars.findIdx? (fun a => a == c)

/-- Number of leading zero entries of a list of naturals. -/
def countLeadingZeros : List Nat → Nat
  | [] => 0
  | x :: rest => if x = 0 then countLeadingZeros rest + 1 else 0

/-- `bs58.encode`: leading zero bytes become leading `'1'` characters and
the remaining big-endian number is written in base 58. -/
def b58encode (b : List Nat) : String :=
  String.mk (List.replicate (countLeadingZeros b) '1'
    ++ (digitsLE 58 (bytesToNat b)).reverse.map b58CharOf)

/-- The digit values of a base58 string; `none` (the spec's EncodingError)
as soon as one character is outside the alphabet. -/
def b58decodeDigits : List Char → Option (List Nat)
  | [] => some []
  | c :: rest =>
    match b58CharVal c, b58decodeDigits rest with
    | some d, some ds => some (d :: ds)
    | _, _ => none

/-- `bs58.decode` on a character list: leading zero digits become leading
zero bytes and the base-58 number becomes big-endian base-256 bytes. -/
def b58decodeList (cs : List Char) : Option (List Nat) :=
  match b58decodeDigits cs with
  | some ds =>
    some (List.replicate (countLeadingZeros ds) 0
      ++ (digitsLE 256 (Nat.ofDigits 58 ds.reverse)).reverse)
  | none => none

/-- `bs58.decode` on a string. -/
def b58decode (s : String) : Option (List Nat) := b58decodeList s.toList

/-- Model of the external `multihashing(buf, 'sha2-256')` collaborator:
the sha2-256 multihash code `0x12`, the digest length, then the digest.
The digest function itself is external and passed as an argument. -/
def multihashing (sha256 : List Nat → List Nat) (buf : List Nat) : List Nat :=
  18 :: (sha256 buf).length :: sha256 buf

/-- A JavaScript value stored in a `PeerId` field: either a Node `Buffer`
or a string.  `createFromPrivKey` stores its string argument, every other
path stores buffers. -/
inductive BufOrStr
  | buf : List Nat → BufOrStr
  | str : String → BufOrStr
deriving DecidableEq

/-- The `PeerId` entity of `src/index.js` (lines 20–60): the multihash
`id` buffer and the optional `privKey`/`pubKey` fields (absent fields are
`undefined` in JavaScript, `none` here). -/
structure PeerId where
  id : List Nat
  privKey : Option BufOrStr := none
  pubKey : Option BufOrStr := none
deriving DecidableEq

/-- The JSON shape produced by `toJSON`: three string fields. -/
structure PeerIdJSON where
  id : String
  privKey : String
  pubKey : String
deriving DecidableEq

/-- JavaScript `v.toString('hex')` on a `PeerId` key field: hex encoding
for a `Buffer`, but `String.prototype.toString` ignores its argument, so a
stored string is returned verbatim. -/
def jsToStringHex : BufOrStr → String
  | BufOrStr.buf b => hexEncode b
  | BufOrStr.str s => s

/-- `toJSON` (lines 40–46): hex of the id and `toString('hex')` of the two
key fields; calling it on an identity with an absent key field throws in
JavaScript (`undefined.toString`), modelled by `none`. -/
def PeerId.toJSON (p : PeerId) : Option PeerIdJSON :=
  match p.privKey, p.pubKey with
  | some pk, some pub =>
    some { id := hexEncode p.id, privKey := jsToStringHex pk, pubKey := jsToStringHex pub }
  | _, _ => none

/-- `toHexString` (lines 49–51). -/
def PeerId.toHexString (p : PeerId) : String := hexEncode p.id

/-- `toBytes` (lines 53–55). -/
def PeerId.toBytes (p : PeerId) : List Nat := p.id

/-- `toB58String` (lines 57–59). -/
def PeerId.toB58String (p : PeerId) : String := b58encode p.id

/-- `formatKey` (lines 90–106): DER-encode the ASN.1 key object, wrap the
DER bytes in a key record, and return the base64 string of the record.
The ASN.1 → DER step is the external forge provider, so the model takes
the DER bytes directly. -/
def formatKey (der : List Nat) (t : KeyDir) : String := b64encode (keyMarshal der t)

/-- `create` (lines 109–134).  RSA key generation is the external forge
provider; the model takes the DER encodings of the generated public and
private keys as arguments and performs the rest of the pipeline: format
both keys, base64-decode them back into buffers, and hash the decoded
public record into the multihash id. -/
def create (sha256 : List Nat → List Nat) (asnPubDer asnPrivDer : List Nat) : PeerId :=
  let protoPublic64 := formatKey asnPubDer KeyDir.Public
  let protoPrivate64 := formatKey asnPrivDer KeyDir.Private
  let bufProtoPub64 := (b64decode protoPublic64).getD []
  let bufProtoPriv64 := (b64decode protoPrivate64).getD []
  let mhId := multihashing sha256 ((b64decode protoPublic64).getD [])
  { id := mhId, privKey := some (BufOrStr.buf bufProtoPriv64),
    pubKey := some (BufOrStr.buf bufProtoPub64) }

/-- `createFromHexString` (lines 136–138): decode the hex text and wrap it
as an id-only identity. -/
def createFromHexString (s : String) : Option PeerId :=
  match hexDecode s with
  | some b => some { id := b }
  | none => none

/-- `createFromBytes` (lines 140–142). -/
def createFromBytes (buf : List Nat) : PeerId := { id := buf }

/-- `createFromB58String` (lines 144–146): decode the base58 text and wrap
it as an id-only identity. -/
def createFromB58String (s : String) : Option PeerId :=
  match b58decode s with
  | some b => some { id := b }
  | none => none

/-- `createFromPubKey` (lines 149–153): the input is a buffer holding an
encoded public key record; `new Buffer(buffer, 'base64')` copies a buffer
argument verbatim (the encoding argument is ignored), so the id is the
multihash of the given bytes with no decode or validation, the given bytes
are stored as `pubKey`, and `privKey` is `null`. -/
def createFromPubKey (sha256 : List Nat → List Nat) (pubKey : List Nat) : PeerId :=
  { id := multihashing sha256 pubKey, privKey := none, pubKey := some (BufOrStr.buf pubKey) }

/-- `createFromPrivKey` (lines 156–185): base64-decode the given string,
unwrap the private key record, run the external forge pipeline
(`rsaDerivePub`, standing for DER-parse, public key reconstruction from
modulus and exponent, and DER re-encoding), format the derived public key,
and store: the multihash of the re-decoded public record as id, the input
string itself (unmodified) as `privKey`, and the public record buffer as
`pubKey`. -/
def createFromPrivKey (sha256 : List Nat → List Nat)
    (rsaDerivePub : List Nat → Option (List Nat)) (privKey : String) : Option PeerId :=
  match b64decode privKey with
  | none => none
  | some buf =>
    match keyUnmarshal buf with
    | none => none
    | some mpk =>
      match rsaDerivePub mpk.Data with
      | none => none
      | some asnPubDer =>
        match b64decode (formatKey asnPubDer KeyDir.Public) with
        | none => none
        | some bufProtoPub64 =>
          some { id := multihashing sha256 bufProtoPub64,
                 privKey := some (BufOrStr.str privKey),
                 pubKey := some (BufOrStr.buf bufProtoPub64) }

/-- `createFromJSON` (lines 187–192): hex-decode the three string fields
independently, with no recomputation of the id. -/
def createFromJSON (j : PeerIdJSON) : Option PeerId :=
  match hexDecode j.id, hexDecode j.privKey, hexDecode j.pubKey with
  | some i, some pr, some pu =>
    some { id := i, privKey := some (BufOrStr.buf pr), pubKey := some (BufOrStr.buf pu) }
  | _, _, _ => none

/-- A concrete stand-in for the external sha2-256 digest, used to
instantiate witnesses; the theorems quantify over the digest function. -/
def identityHash : List Nat → List Nat := fun b => b

/-- A concrete stand-in for the external forge derivation used to
instantiate witnesses: every private key derives the empty public DER. -/
def deriveEmpty : List Nat → Option (List Nat) := fun _ => some []

/-! ### Varint and key-codec lemmas -/

/-- The fuel of `varintEncodeAux` is irrelevant as long as it dominates the
encoded number. -/
theorem varintEncodeAux_congr : ∀ f₁ n, n ≤ f₁ → ∀ f₂, n ≤ f₂ →
    varintEncodeAux f₁ n = varintEncodeAux f₂ n := by
  intro f₁
  induction f₁ with
  | zero =>
    intro n hn f₂ _
    have hn0 : n = 0 := by omega
    subst hn0
    cases f₂ <;> simp [varintEncodeAux]
  | succ f ih =>
    intro n hn f₂ hn2
    cases f₂ with
    | zero =>
      have hn0 : n = 0 := by omega
      subst hn0
      simp [varintEncodeAux]
    | succ g =>
      simp only [varintEncodeAux]
      by_cases h : n < 128
      · simp [h]
      · simp only [if_neg h]
        have hd : n / 128 < n := Nat.div_lt_self (by omega) (by omega)
        rw [ih (n / 128) (by omega) g (by omega)]

/-- Unfolding equation of `varintEncode` without fuel. -/
theorem varintEncode_eq (n : Nat) :
    varintEncode n = if n < 128 then [n] else (n % 128 + 128) :: varintEncode (n / 128) := by
  unfold varintEncode
  cases n with
  | zero => simp [varintEncodeAux]
  | succ m =>
    show varintEncodeAux (m + 1) (m + 1) = _
    simp only [varintEncodeAux]
    by_cases h : m + 1 < 128
    · simp [h]
    · simp only [if_neg h]
      have hd : (m + 1) / 128 < m + 1 := Nat.div_lt_self (by omega) (by omega)
      rw [varintEncodeAux_congr m ((m + 1) / 128) (by omega) ((m + 1) / 128) (by omega)]

/-- Parsing a varint encoding followed by anything returns the encoded
number and the rest of the input. -/
theorem parseVarint_varintEncode (n : Nat) (rest : List Nat) :
    parseVarint (varintEncode n ++ rest) = some (n, rest) := by
  induction n using Nat.strong_induction_on with
  | _ n ih =>
    rw [varintEncode_eq]
    by_cases h : n < 128
    · simp [h, parseVarint]
    · simp only [if_neg h, List.cons_append, parseVarint]
      rw [if_neg (by omega)]
      rw [ih (n / 128) (Nat.div_lt_self (by omega) (by omega))]
      simp only [Option.some.injEq, Prod.mk.injEq]
      exact ⟨by omega, trivial⟩

/-- Parsing a strict initial segment of a varint encoding fails. -/
theorem parseVarint_take_none : ∀ n j, j < (varintEncode n).length →
    parseVarint ((varintEncode n).take j) = none := by
  intro n
  induction n using Nat.strong_induction_on with
  | _ n ih =>
    intro j h
    rw [varintEncode_eq] at h ⊢
    by_cases hn : n < 128
    · rw [if_pos hn] at h ⊢
      have hj : j = 0 := by simp at h; omega
      subst hj
      simp [parseVarint]
    · rw [if_neg hn] at h ⊢
      cases j with
      | zero => simp [parseVarint]
      | succ i =>
        simp only [List.take_succ_cons, parseVarint]
        rw [if_neg (by omega)]
        have hi : i < (varintEncode (n / 128)).length := by simp at h; omega
        rw [ih (n / 128) (Nat.div_lt_self (by omega) (by omega)) i hi]

/-- Every byte of a varint encoding fits in an octet. -/
theorem varintEncode_valid (n : Nat) : ∀ x ∈ varintEncode n, x < 256 := by
  induction n using Nat.strong_induction_on with
  | _ n ih =>
    rw [varintEncode_eq]
    by_cases h : n < 128
    · intro x hx
      rw [if_pos h] at hx
      simp at hx
      omega
    · simp only [if_neg h, List.mem_cons]
      rintro x (rfl | hx)
      · omega
      · exact ih (n / 128) (Nat.div_lt_self (by omega) (by omega)) x hx

/-- Both directions of `keyMarshal` produce the same wire bytes:
header for field 1, `Type = 0`, header for field 2, length, payload. -/
theorem keyMarshal_eq (p : List Nat) (t : KeyDir) :
    keyMarshal p t = 8 :: 0 :: 18 :: (varintEncode p.length ++ p) := by
  have h0 : varintEncode 0 = [0] := rfl
  cases t <;> simp [keyMarshal, pbKeyMessageEncode, h0]

/-- The encoded record is strictly longer than its payload. -/
theorem keyMarshal_length (p : List Nat) (t : KeyDir) :
    (keyMarshal p t).length = 3 + (varintEncode p.length).length + p.length := by
  rw [keyMarshal_eq]
  simp only [List.length_cons, List.length_append]
  omega

/-- The encoded record never equals the raw payload. -/
theorem keyMarshal_ne_payload (p : List Nat) (t : KeyDir) : keyMarshal p t ≠ p := by
  intro h
  have := congrArg List.length h
  rw [keyMarshal_length] at this
  omega

/-- Every byte of an encoded record fits in an octet when the payload does. -/
theorem keyMarshal_valid (p : List Nat) (t : KeyDir) (hp : ValidBytes p) :
    ValidBytes (keyMarshal p t) := by
  rw [keyMarshal_eq]
  intro x hx
  simp only [List.mem_cons, List.mem_append] at hx
  rcases hx with rfl | rfl | rfl | hx | hx
  · omega
  · omega
  · omega
  · exact varintEncode_valid _ x hx
  · exact hp x hx

/-! ### Base64 lemmas -/

/-- Alphabet lookup inverts the alphabet character of every 6-bit value. -/
theorem b64CharVal_b64CharOf : ∀ s < 64, b64CharVal (b64CharOf s) = some s := by decide

/-- Alphabet characters are never the padding character. -/
theorem b64CharOf_ne_pad : ∀ s < 64, b64CharOf s ≠ '=' := by decide

/-- Base64 decoding inverts base64 encoding on octet strings. -/
theorem b64decodeList_b64encodeList : ∀ b : List Nat, ValidBytes b →
    b64decodeList (b64encodeList b) = some b := by
  intro b
  induction b using b64encodeList.induct with
  | case1 => intro _; rfl
  | case2 a =>
    intro hv
    have ha : a < 256 := hv a (by simp)
    simp only [b64encodeList, b64decodeList,
      b64CharVal_b64CharOf (a / 4) (by omega),
      b64CharVal_b64CharOf (a % 4 * 16) (by omega),
      and_self, and_true, if_true, Option.some.injEq, List.cons.injEq]
    omega
  | case3 a b =>
    intro hv
    have ha : a < 256 := hv a (by simp)
    have hb : b < 256 := hv b (by simp)
    simp only [b64encodeList, b64decodeList,
      b64CharVal_b64CharOf (a / 4) (by omega),
      b64CharVal_b64CharOf (a % 4 * 16 + b / 16) (by omega),
      b64CharVal_b64CharOf (b % 16 * 4) (by omega),
      b64CharOf_ne_pad (b % 16 * 4) (by omega),
      false_and, if_false, and_self, and_true, if_true,
      Option.some.injEq, List.cons.injEq]
    omega
  | case4 a b d rest ih =>
    intro hv
    have ha : a < 256 := hv a (by simp)
    have hb : b < 256 := hv b (by simp)
    have hd : d < 256 := hv d (by simp)
    have hrest : ValidBytes rest := fun y hy => hv y (by simp [hy])
    simp only [b64encodeList, b64decodeList,
      b64CharVal_b64CharOf (a / 4) (by omega),
      b64CharVal_b64CharOf (a % 4 * 16 + b / 16) (by omega),
      b64CharVal_b64CharOf (b % 16 * 4 + d / 64) (by omega),
      b64CharVal_b64CharOf (d % 64) (by omega),
      b64CharOf_ne_pad (b % 16 * 4 + d / 64) (by omega),
      b64CharOf_ne_pad (d % 64) (by omega),
      false_and, if_false, ih hrest, Option.some.injEq, List.cons.injEq]
    simp only [and_true]
    omega

/-- String-level base64 round trip. -/
theorem b64decode_b64encode (b : List Nat) (hv : ValidBytes b) :
    b64decode (b64encode b) = some b := by
  have : (b64encode b).toList = b64encodeList b := rfl
  rw [b64decode, this]
  exact b64decodeList_b64encodeList b hv

/-! ### Hex lemmas -/

/-- Digit lookup inverts the hex digit of every value below 16. -/
theorem hexDigitVal_hexCharOf : ∀ n < 16, hexDigitVal (hexCharOf n) = some n := by decide

/-- Hex decoding inverts hex encoding on octet strings. -/
theorem hexDecodeList_hexEncodeList : ∀ b : List Nat, ValidBytes b →
    hexDecodeList (hexEncodeList b) = some b := by
  intro b
  induction b with
  | nil => intro _; rfl
  | cons x rest ih =>
    intro hv
    have hx : x < 256 := hv x (by simp)
    have hrest : ValidBytes rest := fun y hy => hv y (by simp [hy])
    simp only [hexEncodeList, hexDecodeList,
      hexDigitVal_hexCharOf (x / 16) (by omega), hexDigitVal_hexCharOf (x % 16) (by omega),
      ih hrest, Option.some.injEq, List.cons.injEq, and_true]
    omega

/-- String-level hex round trip. -/
theorem hexDecode_hexEncode (b : List Nat) (hv : ValidBytes b) :
    hexDecode (hexEncode b) = some b := by
  have : (hexEncode b).toList = hexEncodeList b := rfl
  rw [hexDecode, this]
  exact hexDecodeList_hexEncodeList b hv

/-- Hex decoding fails as soon as one character is not a hex digit. -/
theorem hexDecodeList_invalid : ∀ (n : Nat) (cs : List Char), cs.length = n →
    (∃ c ∈ cs, hexDigitVal c = none) → hexDecodeList cs = none := by
  intro n
  induction n using Nat.strong_induction_on with
  | _ n ih =>
    intro cs hlen hex
    rcases cs with _ | ⟨a, _ | ⟨b, rest⟩⟩
    · rcases hex with ⟨c, hc, _⟩
      simp at hc
    · rfl
    · rcases hex with ⟨c, hc, hval⟩
      simp only [List.length_cons] at hlen
      simp only [List.mem_cons] at hc
      simp only [hexDecodeList]
      rcases hc with rfl | rfl | hc
      · rw [hval]
      · rw [hval]
        cases hexDigitVal a <;> rfl
      · rw [ih rest.length (by omega) rest rfl ⟨c, hc, hval⟩]
        cases hexDigitVal a <;> cases hexDigitVal b <;> rfl

/-! ### Base58 lemmas -/

/-- Alphabet lookup inverts the alphabet character of every value below 58. -/
theorem b58CharVal_b58CharOf : ∀ d < 58, b58CharVal (b58CharOf d) = some d := by decide

/-- The zero digit of the base58 alphabet. -/
theorem b58CharVal_one : b58CharVal '1' = some 0 := by decide

/-- The fuel of `digitsLEAux` is irrelevant once it dominates the number. -/
theorem digitsLEAux_congr (b : Nat) (hb : 2 ≤ b) : ∀ f₁ n, n ≤ f₁ → ∀ f₂, n ≤ f₂ →
    digitsLEAux b f₁ n = digitsLEAux b f₂ n := by
  intro f₁
  induction f₁ with
  | zero =>
    intro n hn f₂ _
    have h0 : n = 0 := by omega
    subst h0
    cases f₂ <;> rfl
  | succ f ih =>
    intro n hn f₂ hn2
    cases n with
    | zero => cases f₂ <;> rfl
    | succ m =>
      cases f₂ with
      | zero => omega
      | succ g =>
        simp only [digitsLEAux]
        have hd : (m + 1) / b < m + 1 := Nat.div_lt_self (by omega) (by omega)
        rw [ih ((m + 1) / b) (by omega) g (by omega)]

/-- `digitsLE` agrees with Mathlib's `Nat.digits` for every base from 2 up. -/
theorem digitsLE_eq_digits (b : Nat) (hb : 2 ≤ b) : ∀ n, digitsLE b n = Nat.digits b n := by
  intro n
  induction n using Nat.strong_induction_on with
  | _ n ih =>
    cases n with
    | zero => simp [digitsLE, digitsLEAux]
    | succ m =>
      have hd : (m + 1) / b < m + 1 := Nat.div_lt_self (by omega) (by omega)
      show digitsLEAux b (m + 1) (m + 1) = _
      simp only [digitsLEAux]
      rw [digitsLEAux_congr b hb m ((m + 1) / b) (by omega) ((m + 1) / b) (by omega)]
      show (m + 1) % b :: digitsLE b ((m + 1) / b) = _
      rw [ih ((m + 1) / b) hd, ← Nat.digits_def' (by omega : 1 < b) (by omega : 0 < m + 1)]

/-- The value of a string of zero digits is zero. -/
theorem ofDigits_replicate_zero (b k : Nat) : Nat.ofDigits b (List.replicate k 0) = 0 := by
  induction k with
  | zero => rfl
  | succ n ih => simp [List.replicate_succ, Nat.ofDigits_cons, ih]

/-- Splitting a list at its leading zeros reassembles it. -/
theorem replicate_append_drop_clz (l : List Nat) :
    List.replicate (countLeadingZeros l) 0 ++ l.drop (countLeadingZeros l) = l := by
  induction l with
  | nil => rfl
  | cons x rest ih =>
    by_cases h : x = 0
    · subst h
      have hc : countLeadingZeros (0 :: rest) = countLeadingZeros rest + 1 := by
        simp [countLeadingZeros]
      rw [hc, List.replicate_succ, List.cons_append, List.drop_succ_cons, ih]
    · simp [countLeadingZeros, h]

/-- After dropping the leading zeros the head, if any, is nonzero. -/
theorem head?_drop_clz (l : List Nat) :
    (l.drop (countLeadingZeros l)).head? ≠ some 0 := by
  induction l with
  | nil => simp
  | cons x rest ih =>
    by_cases h : x = 0
    · subst h
      simp only [countLeadingZeros, if_pos rfl, List.drop_succ_cons]
      exact ih
    · simp [countLeadingZeros, h]

/-- Counting leading zeros after prepending `k` zeros to a list with a
nonzero head gives exactly `k`. -/
theorem clz_replicate_append (k : Nat) (rest : List Nat) (h : rest.head? ≠ some 0) :
    countLeadingZeros (List.replicate k 0 ++ rest) = k := by
  induction k with
  | zero =>
    cases rest with
    | nil => rfl
    | cons x r =>
      have hx : x ≠ 0 := by simpa using h
      simp [countLeadingZeros, hx]
  | succ n ih =>
    have hc : countLeadingZeros (0 :: (List.replicate n 0 ++ rest))
        = countLeadingZeros (List.replicate n 0 ++ rest) + 1 := by
      simp [countLeadingZeros]
    rw [List.replicate_succ, List.cons_append, hc, ih]

/-- Decoding the alphabet characters of digits below 58 recovers the digits. -/
theorem b58decodeDigits_map (ds : List Nat) (hds : ∀ d ∈ ds, d < 58) :
    b58decodeDigits (ds.map b58CharOf) = some ds := by
  induction ds with
  | nil => rfl
  | cons d rest ih =>
    simp only [List.map_cons, b58decodeDigits, b58CharVal_b58CharOf d (hds d (by simp)),
      ih (fun x hx => hds x (by simp [hx]))]

/-- Prepending `'1'` characters prepends zero digits. -/
theorem b58decodeDigits_replicate (k : Nat) (l : List Char) (ds : List Nat)
    (hl : b58decodeDigits l = some ds) :
    b58decodeDigits (List.replicate k '1' ++ l) = some (List.replicate k 0 ++ ds) := by
  induction k with
  | zero => simpa using hl
  | succ n ih =>
    simp only [List.replicate_succ, List.cons_append]
    simp only [b58decodeDigits, b58CharVal_one, ih]

/-- Base58 decoding fails as soon as one character is outside the alphabet. -/
theorem b58decodeDigits_invalid : ∀ cs : List Char, (∃ c ∈ cs, b58CharVal c = none) →
    b58decodeDigits cs = none := by
  intro cs
  induction cs with
  | nil =>
    rintro ⟨c, hc, _⟩
    simp at hc
  | cons a rest ih =>
    rintro ⟨c, hc, hval⟩
    simp only [List.mem_cons] at hc
    simp only [b58decodeDigits]
    rcases hc with rfl | hc
    · rw [hval]
    · rw [ih ⟨c, hc, hval⟩]
      cases b58CharVal a <;> rfl

/-- Base58 decoding inverts base58 encoding on octet strings. -/
theorem b58decode_b58encode (bs : List Nat) (hv : ValidBytes bs) :
    b58decode (b58encode bs) = some bs := by
  have hsplit : List.replicate (countLeadingZeros bs) 0
      ++ bs.drop (countLeadingZeros bs) = bs := replicate_append_drop_clz bs
  have hhead : (bs.drop (countLeadingZeros bs)).head? ≠ some 0 := head?_drop_clz bs
  set k := countLeadingZeros bs with hk
  set rest := bs.drop k with hrestdef
  have hvrest : ∀ x ∈ rest, x < 256 := fun x hx => hv x (by
    rw [← hsplit]; exact List.mem_append_right _ hx)
  have hNrest : bytesToNat bs = Nat.ofDigits 256 rest.reverse := by
    rw [bytesToNat, ← hsplit, List.reverse_append, Nat.ofDigits_append]
    simp [List.reverse_replicate, ofDigits_replicate_zero]
  have hchars : (b58encode bs).toList
      = List.replicate k '1' ++ (Nat.digits 58 (bytesToNat bs)).reverse.map b58CharOf := by
    show List.replicate (countLeadingZeros bs) '1'
        ++ (digitsLE 58 (bytesToNat bs)).reverse.map b58CharOf = _
    rw [digitsLE_eq_digits 58 (by omega), hk]
  have hdigs : b58decodeDigits ((b58encode bs).toList)
      = some (List.replicate k 0 ++ (Nat.digits 58 (bytesToNat bs)).reverse) := by
    rw [hchars]
    exact b58decodeDigits_replicate k _ _
      (b58decodeDigits_map _ (fun d hd =>
        Nat.digits_lt_base (by omega) (List.mem_reverse.mp hd)))
  simp only [b58decode, b58decodeList, hdigs]
  have hval : Nat.ofDigits 58
      (List.replicate k 0 ++ (Nat.digits 58 (bytesToNat bs)).reverse).reverse
      = bytesToNat bs := by
    rw [List.reverse_append, List.reverse_reverse, List.reverse_replicate,
      Nat.ofDigits_append, ofDigits_replicate_zero, Nat.ofDigits_digits]
    simp
  rw [hval, digitsLE_eq_digits 256 (by omega)]
  by_cases hN0 : bytesToNat bs = 0
  · have hrest0 : rest = [] := by
      cases hrc : rest with
      | nil => rfl
      | cons x r =>
        exfalso
        have hx : x ≠ 0 := by
          rw [hrc] at hhead
          simpa using hhead
        have hz : Nat.ofDigits 256 (x :: r).reverse = 0 := by
          rw [← hrc, ← hNrest]
          exact hN0
        rw [List.reverse_cons, Nat.ofDigits_append, Nat.ofDigits_singleton] at hz
        have hp : 0 < 256 ^ r.reverse.length := pow_pos (by omega) _
        have hm : 0 < 256 ^ r.reverse.length * x := Nat.mul_pos hp (Nat.pos_of_ne_zero hx)
        omega
    rw [hN0]
    simp only [Nat.digits_zero, List.reverse_nil, List.append_nil, List.map_nil]
    have hck : countLeadingZeros (List.replicate k 0) = k := by
      have h1 := clz_replicate_append k [] (by simp)
      rwa [List.append_nil] at h1
    rw [hck, ← hsplit, hrest0, List.append_nil]
  · have hne : Nat.digits 58 (bytesToNat bs) ≠ [] := Nat.digits_ne_nil_iff_ne_zero.mpr hN0
    have hlast := Nat.getLast_digit_ne_zero 58 hN0
    have hh : ((Nat.digits 58 (bytesToNat bs)).reverse).head? ≠ some 0 := by
      rw [List.head?_reverse, List.getLast?_eq_getLast_of_ne_nil hne]
      simp only [ne_eq, Option.some.injEq]
      exact hlast
    rw [clz_replicate_append k _ hh]
    have hrne : rest ≠ [] := by
      intro hre
      apply hN0
      rw [hNrest, hre]
      rfl
    have hd256 : Nat.digits 256 (bytesToNat bs) = rest.reverse := by
      rw [hNrest]
      refine Nat.digits_ofDigits 256 (by omega) rest.reverse
        (fun l hl => hvrest l (List.mem_reverse.mp hl)) ?_
      intro hne2
      have hgl : rest.reverse.getLast? = rest.head? := List.getLast?_reverse rest
      rw [List.getLast?_eq_getLast_of_ne_nil hne2] at hgl
      intro hglz
      apply hhead
      rw [← hgl, hglz]
    rw [hd256, List.reverse_reverse, hsplit]

/-! ### Key-codec failure lemmas and factory characterization -/

/-- Decoding any strict initial segment of an encoded record fails. -/
theorem keyUnmarshal_take_none (p : List Nat) (t : KeyDir) (k : Nat)
    (hk : k < (keyMarshal p t).length) :
    keyUnmarshal ((keyMarshal p t).take k) = none := by
  rw [keyMarshal_eq] at hk ⊢
  rcases k with _ | _ | _ | j
  · simp [keyUnmarshal, pbKeyMessageDecode]
  · simp [keyUnmarshal, pbKeyMessageDecode, parseVarint]
  · simp [keyUnmarshal, pbKeyMessageDecode, parseVarint]
  · simp only [List.take_succ_cons]
    have hj : j < (varintEncode p.length).length + p.length := by
      simp only [List.length_cons, List.length_append] at hk
      omega
    by_cases hcase : j < (varintEncode p.length).length
    · have htake : (varintEncode p.length ++ p).take j = (varintEncode p.length).take j := by
        rw [List.take_append_eq_append_take]
        have h0 : j - (varintEncode p.length).length = 0 := by omega
        rw [h0, List.take_zero, List.append_nil]
      rw [htake]
      have hnone := parseVarint_take_none p.length j hcase
      simp [keyUnmarshal, pbKeyMessageDecode, parseVarint, hnone]
    · have htake : (varintEncode p.length ++ p).take j
          = varintEncode p.length ++ p.take (j - (varintEncode p.length).length) := by
        rw [List.take_append_eq_append_take, List.take_of_length_le (by omega)]
      rw [htake]
      have hparse := parseVarint_varintEncode p.length
        (p.take (j - (varintEncode p.length).length))
      have hlen : (p.take (j - (varintEncode p.length).length)).length ≠ p.length := by
        rw [List.length_take]
        omega
      have hle : ¬ p.length ≤ j - (varintEncode p.length).length := by omega
      simp [keyUnmarshal, pbKeyMessageDecode, parseVarint, hparse, hlen, hle]

/-- Decoding a record whose `Type` value is not the RSA tag fails. -/
theorem keyUnmarshal_wrong_type (ty : Nat) (p : List Nat) (hty : ty ≠ 0) :
    keyUnmarshal (pbKeyMessageEncode ty p) = none := by
  simp [keyUnmarshal, pbKeyMessageDecode, pbKeyMessageEncode, parseVarint_varintEncode, hty]

/-- Successful runs of `createFromPrivKey` are exactly the runs where every
stage succeeds, and the stages determine every field of the result. -/
theorem createFromPrivKey_some (sha256 : List Nat → List Nat)
    (rsaDerivePub : List Nat → Option (List Nat)) (s : String) (I : PeerId)
    (h : createFromPrivKey sha256 rsaDerivePub s = some I) :
    ∃ buf mpk asnPubDer bufPub,
      b64decode s = some buf ∧ keyUnmarshal buf = some mpk ∧
      rsaDerivePub mpk.Data = some asnPubDer ∧
      b64decode (formatKey asnPubDer KeyDir.Public) = some bufPub ∧
      I = { id := multihashing sha256 bufPub,
            privKey := some (BufOrStr.str s),
            pubKey := some (BufOrStr.buf bufPub) } := by
  cases h1 : b64decode s with
  | none =>
    simp only [createFromPrivKey, h1] at h
    exact Option.noConfusion h
  | some buf =>
    cases h2 : keyUnmarshal buf with
    | none =>
      simp only [createFromPrivKey, h1, h2] at h
      exact Option.noConfusion h
    | some mpk =>
      cases h3 : rsaDerivePub mpk.Data with
      | none =>
        simp only [createFromPrivKey, h1, h2, h3] at h
        exact Option.noConfusion h
      | some der =>
        cases h4 : b64decode (formatKey der KeyDir.Public) with
        | none =>
          simp only [createFromPrivKey, h1, h2, h3, h4] at h
          exact Option.noConfusion h
        | some bufPub =>
          simp only [createFromPrivKey, h1, h2, h3, h4, Option.some.injEq] at h
          exact ⟨buf, mpk, der, bufPub, rfl, h2, h3, h4, h.symm⟩

/-! ### Claim theorems -/

/-- C1: for every identity returned by the key-pair creation operation
(`create`), the `id` field equals `multihash(sha2-256, bytes of the encoded
public KeyRecord)`; the hash input is the tagged encoded record, which is
never the raw DER of the public key. -/
theorem create_id_is_hash_of_encoded_record (sha256 : List Nat → List Nat)
    (asnPubDer asnPrivDer : List Nat) (hpub : ValidBytes asnPubDer) :
    (create sha256 asnPubDer asnPrivDer).id
      = multihashing sha256 (keyMarshal asnPubDer KeyDir.Public) ∧
    keyMarshal asnPubDer KeyDir.Public ≠ asnPubDer := by
  constructor
  · show multihashing sha256
        ((b64decode (formatKey asnPubDer KeyDir.Public)).getD []) = _
    rw [formatKey, b64decode_b64encode _ (keyMarshal_valid _ _ hpub)]
    rfl
  · exact keyMarshal_ne_payload asnPubDer KeyDir.Public

/-- Witness for C1 at a concrete DER pair and digest function. -/
theorem create_id_is_hash_of_encoded_record_witness :
    ValidBytes [1, 2] ∧
    ((create identityHash [1, 2] [3]).id
        = multihashing identityHash (keyMarshal [1, 2] KeyDir.Public) ∧
      keyMarshal [1, 2] KeyDir.Public ≠ [1, 2]) :=
  ⟨by decide, create_id_is_hash_of_encoded_record identityHash [1, 2] [3] (by decide)⟩

/-- C2: for every successful `createFromPrivKey` run, hashing the stored
encoded derived public record through `createFromPubKey` reproduces the
same id. -/
theorem createFromPrivKey_id_matches_createFromPubKey
    (sha256 : List Nat → List Nat) (rsaDerivePub : List Nat → Option (List Nat))
    (s : String) (I : PeerId) (pubBytes : List Nat)
    (h : createFromPrivKey sha256 rsaDerivePub s = some I)
    (hp : I.pubKey = some (BufOrStr.buf pubBytes)) :
    (createFromPubKey sha256 pubBytes).id = I.id := by
  obtain ⟨buf, mpk, der, bufPub, h1, h2, h3, h4, hI⟩ :=
    createFromPrivKey_some _ _ _ _ h
  subst hI
  simp only [Option.some.injEq, BufOrStr.buf.injEq] at hp
  subst hp
  rfl

/-- Witness for C2 at a concrete key record, derivation and digest. -/
theorem createFromPrivKey_id_matches_createFromPubKey_witness :
    createFromPrivKey identityHash deriveEmpty "CAASAQE="
        = some { id := [18, 4, 8, 0, 18, 0], privKey := some (BufOrStr.str "CAASAQE="),
                 pubKey := some (BufOrStr.buf [8, 0, 18, 0]) } ∧
    (createFromPubKey identityHash [8, 0, 18, 0]).id = [18, 4, 8, 0, 18, 0] :=
  ⟨by decide,
    createFromPrivKey_id_matches_createFromPubKey identityHash deriveEmpty "CAASAQE="
      { id := [18, 4, 8, 0, 18, 0], privKey := some (BufOrStr.str "CAASAQE="),
        pubKey := some (BufOrStr.buf [8, 0, 18, 0]) } [8, 0, 18, 0] (by decide) rfl⟩

/-- C3 counterexample: the encodings for the Public and the Private
direction of the same payload are byte-identical, so no decoder — the key
codec's included — can return the direction `t` that was encoded, as the
claim `decode(encode(p, t)) = (t, p)` requires; exhibited at the empty
payload. -/
theorem keyCodec_cannot_return_direction :
    ¬ ∃ f : List Nat → Option (KeyDir × List Nat),
        f (keyMarshal [] KeyDir.Public) = some (KeyDir.Public, []) ∧
        f (keyMarshal [] KeyDir.Private) = some (KeyDir.Private, []) := by
  rintro ⟨f, h1, h2⟩
  have he : keyMarshal [] KeyDir.Public = keyMarshal [] KeyDir.Private := rfl
  rw [he, h2] at h1
  simp at h1

/-- C3 amended: decoding the encoding of `(p, t)` with the key codec
returns the record `{Type := RSA = 0, Data := p}` for every byte payload
`p` (the empty one included) and both directions `t`; the payload round
trips exactly, while the Public/Private direction is not recorded on the
wire. -/
theorem keyUnmarshal_keyMarshal (p : List Nat) (t : KeyDir) :
    keyUnmarshal (keyMarshal p t) = some { keyType := 0, Data := p } := by
  rw [keyMarshal_eq]
  simp [keyUnmarshal, pbKeyMessageDecode, parseVarint, parseVarint_varintEncode]

/-- C4: `createFromPubKey` hashes the given public-record bytes directly —
its id is the multihash of the input with no decode or validation (the
operation is total), the input bytes are stored as `pubKey`, and there is
no `privKey`. -/
theorem createFromPubKey_direct (sha256 : List Nat → List Nat) (pubKey : List Nat) :
    (createFromPubKey sha256 pubKey).id = multihashing sha256 pubKey ∧
    (createFromPubKey sha256 pubKey).pubKey = some (BufOrStr.buf pubKey) ∧
    (createFromPubKey sha256 pubKey).privKey = none :=
  ⟨rfl, rfl, rfl⟩

/-- C5: every successful `createFromPrivKey` run stores the caller's
private-key input verbatim as `privKey`, and stores as `pubKey` the
freshly encoded public record of the freshly derived public key. -/
theorem createFromPrivKey_stores_input_and_fresh_public
    (sha256 : List Nat → List Nat) (rsaDerivePub : List Nat → Option (List Nat))
    (s : String) (I : PeerId)
    (hvd : ∀ x der, rsaDerivePub x = some der → ValidBytes der)
    (h : createFromPrivKey sha256 rsaDerivePub s = some I) :
    I.privKey = some (BufOrStr.str s) ∧
    ∃ buf mpk asnPubDer,
      b64decode s = some buf ∧ keyUnmarshal buf = some mpk ∧
      rsaDerivePub mpk.Data = some asnPubDer ∧
      I.pubKey = some (BufOrStr.buf (keyMarshal asnPubDer KeyDir.Public)) := by
  obtain ⟨buf, mpk, der, bufPub, h1, h2, h3, h4, hI⟩ :=
    createFromPrivKey_some _ _ _ _ h
  have hvder : ValidBytes der := hvd _ _ h3
  have hbp : bufPub = keyMarshal der KeyDir.Public := by
    rw [formatKey, b64decode_b64encode _ (keyMarshal_valid _ _ hvder)] at h4
    exact (Option.some.inj h4).symm
  subst hI
  subst hbp
  exact ⟨rfl, buf, mpk, der, h1, h2, h3, rfl⟩

/-- Witness for C5 at a concrete key record, derivation and digest. -/
theorem createFromPrivKey_stores_input_and_fresh_public_witness :
    createFromPrivKey identityHash deriveEmpty "CAASAQE="
        = some { id := [18, 4, 8, 0, 18, 0], privKey := some (BufOrStr.str "CAASAQE="),
                 pubKey := some (BufOrStr.buf [8, 0, 18, 0]) } ∧
    (({ id := [18, 4, 8, 0, 18, 0], privKey := some (BufOrStr.str "CAASAQE="),
        pubKey := some (BufOrStr.buf [8, 0, 18, 0]) } : PeerId).privKey
        = some (BufOrStr.str "CAASAQE=") ∧
      ∃ buf mpk asnPubDer,
        b64decode "CAASAQE=" = some buf ∧ keyUnmarshal buf = some mpk ∧
        deriveEmpty mpk.Data = some asnPubDer ∧
        ({ id := [18, 4, 8, 0, 18, 0], privKey := some (BufOrStr.str "CAASAQE="),
           pubKey := some (BufOrStr.buf [8, 0, 18, 0]) } : PeerId).pubKey
            = some (BufOrStr.buf (keyMarshal asnPubDer KeyDir.Public))) :=
  ⟨by decide,
    createFromPrivKey_stores_input_and_fresh_public identityHash deriveEmpty "CAASAQE=" _
      (fun x der hx => by
        simp only [deriveEmpty, Option.some.injEq] at hx
        subst hx
        intro y hy
        simp at hy)
      (by decide)⟩

/-- C6 counterexample: an identity built by `createFromPrivKey` is fully
populated but stores its private key as the original base64 string, which
`toJSON` emits verbatim; `createFromJSON` then fails to hex-decode it
(the string contains `'S'` and `'='`), so the round trip does not
reproduce the identity. -/
theorem createFromJSON_toJSON_fails_on_privKey_string :
    createFromPrivKey identityHash deriveEmpty "CAASAQE="
        = some { id := [18, 4, 8, 0, 18, 0], privKey := some (BufOrStr.str "CAASAQE="),
                 pubKey := some (BufOrStr.buf [8, 0, 18, 0]) } ∧
    PeerId.toJSON { id := [18, 4, 8, 0, 18, 0], privKey := some (BufOrStr.str "CAASAQE="),
                    pubKey := some (BufOrStr.buf [8, 0, 18, 0]) }
        = some { id := "120408001200", privKey := "CAASAQE=", pubKey := "08001200" } ∧
    createFromJSON { id := "120408001200", privKey := "CAASAQE=", pubKey := "08001200" }
        = none :=
  ⟨by decide, by decide, by decide⟩

/-- C6 amended: for every fully populated identity whose key fields are
byte buffers (as produced by `create` or `createFromJSON`),
`createFromJSON ∘ toJSON` reproduces the id, privKey and pubKey byte
sequences exactly.  (Identities whose `privKey` is the verbatim string
kept by `createFromPrivKey` are excluded: on them the round trip fails,
see the counterexample.) -/
theorem createFromJSON_toJSON_buffer_roundtrip (I : PeerId) (pr pu : List Nat)
    (hpr : I.privKey = some (BufOrStr.buf pr)) (hpu : I.pubKey = some (BufOrStr.buf pu))
    (hid : ValidBytes I.id) (hvpr : ValidBytes pr) (hvpu : ValidBytes pu) :
    ∃ j, I.toJSON = some j ∧
      createFromJSON j = some { id := I.id, privKey := some (BufOrStr.buf pr),
                                pubKey := some (BufOrStr.buf pu) } := by
  refine ⟨{ id := hexEncode I.id, privKey := hexEncode pr, pubKey := hexEncode pu }, ?_, ?_⟩
  · simp only [PeerId.toJSON, hpr, hpu, jsToStringHex]
  · simp only [createFromJSON, hexDecode_hexEncode I.id hid, hexDecode_hexEncode pr hvpr,
      hexDecode_hexEncode pu hvpu]

/-- Witness for the amended C6 at a concrete buffer-valued identity. -/
theorem createFromJSON_toJSON_buffer_roundtrip_witness :
    (∃ j, PeerId.toJSON { id := [18, 4], privKey := some (BufOrStr.buf [1, 255]),
                          pubKey := some (BufOrStr.buf [8, 0]) } = some j ∧
      createFromJSON j = some { id := [18, 4], privKey := some (BufOrStr.buf [1, 255]),
                                pubKey := some (BufOrStr.buf [8, 0]) }) :=
  createFromJSON_toJSON_buffer_roundtrip
    { id := [18, 4], privKey := some (BufOrStr.buf [1, 255]),
      pubKey := some (BufOrStr.buf [8, 0]) }
    [1, 255] [8, 0] rfl rfl (by decide) (by decide) (by decide)

/-- C7: the key-record decode operation fails on every strict truncation
of an encoded record, on an unrecognized type tag, and on inputs that
violate the tag+length schema (a wrong first field header, a wrong second
field header, or an empty message with both required fields missing). -/
theorem keyUnmarshal_rejects_malformed :
    (∀ p t k, k < (keyMarshal p t).length →
        keyUnmarshal ((keyMarshal p t).take k) = none) ∧
    (∀ ty p, ty ≠ 0 → keyUnmarshal (pbKeyMessageEncode ty p) = none) ∧
    (∀ x r, x ≠ 8 → keyUnmarshal (x :: r) = none) ∧
    (∀ ty x r, x ≠ 18 → keyUnmarshal (8 :: (varintEncode ty ++ x :: r)) = none) ∧
    keyUnmarshal [] = none := by
  refine ⟨keyUnmarshal_take_none, keyUnmarshal_wrong_type, ?_, ?_, rfl⟩
  · intro x r hx
    simp [keyUnmarshal, pbKeyMessageDecode, hx]
  · intro ty x r hx
    simp [keyUnmarshal, pbKeyMessageDecode, parseVarint_varintEncode, hx]

/-- Witness for C7: a two-byte truncation of an encoded record is
rejected. -/
theorem keyUnmarshal_rejects_malformed_witness :
    2 < (keyMarshal [1] KeyDir.Public).length ∧
    keyUnmarshal ((keyMarshal [1] KeyDir.Public).take 2) = none :=
  ⟨by decide, keyUnmarshal_rejects_malformed.1 [1] KeyDir.Public 2 (by decide)⟩

/-- C8: `createFromHexString` fails on every string containing a character
that is not a hex digit, and `createFromB58String` fails on every string
containing a character outside the base58 alphabet. -/
theorem createFrom_text_fails_on_invalid_character (s : String) :
    ((∃ c ∈ s.toList, hexDigitVal c = none) → createFromHexString s = none) ∧
    ((∃ c ∈ s.toList, b58CharVal c = none) → createFromB58String s = none) := by
  constructor
  · intro hex
    have hnone : hexDecode s = none :=
      hexDecodeList_invalid s.toList.length s.toList rfl hex
    simp [createFromHexString, hnone]
  · intro hb
    have hnone : b58decodeDigits s.data = none := b58decodeDigits_invalid s.data hb
    simp [createFromB58String, b58decode, b58decodeList, hnone]

/-- Witness for C8 at `"0O"`: `'O'` is not a hex digit and `'0'` is not a
base58 character. -/
theorem createFrom_text_fails_on_invalid_character_witness :
    ((∃ c ∈ ("0O" : String).toList, hexDigitVal c = none) ∧
      createFromHexString "0O" = none) ∧
    ((∃ c ∈ ("0O" : String).toList, b58CharVal c = none) ∧
      createFromB58String "0O" = none) :=
  ⟨⟨by decide, (createFrom_text_fails_on_invalid_character "0O").1 (by decide)⟩,
    ⟨by decide, (createFrom_text_fails_on_invalid_character "0O").2 (by decide)⟩⟩

/-- C9: for every identity, decoding its base58 rendering with
`createFromB58String` succeeds and reproduces the same id bytes. -/
theorem createFromB58String_toB58String (I : PeerId) (h : ValidBytes I.id) :
    ∃ I2, createFromB58String I.toB58String = some I2 ∧ I2.toBytes = I.toBytes := by
  refine ⟨{ id := I.id }, ?_, rfl⟩
  have hrt : b58decode (b58encode I.id) = some I.id := b58decode_b58encode I.id h
  simp [createFromB58String, PeerId.toB58String, hrt]

/-- Witness for C9 at a concrete id with a leading zero byte. -/
theorem createFromB58String_toB58String_witness :
    ValidBytes ([0, 1, 255] : List Nat) ∧
    ∃ I2, createFromB58String (PeerId.toB58String { id := [0, 1, 255] }) = some I2 ∧
      I2.toBytes = PeerId.toBytes { id := [0, 1, 255] } :=
  ⟨by decide, createFromB58String_toB58String { id := [0, 1, 255] } (by decide)⟩

/-- C10: `createFromPrivKey` stores the caller's original base64 string
itself as `privKey` — not a byte buffer — so the `privKey` field of
`toJSON`'s result is that original string verbatim rather than a hex
re-encoding of key bytes. -/
theorem createFromPrivKey_privKey_is_input_string
    (sha256 : List Nat → List Nat) (rsaDerivePub : List Nat → Option (List Nat))
    (s : String) (I : PeerId)
    (h : createFromPrivKey sha256 rsaDerivePub s = some I) :
    I.privKey = some (BufOrStr.str s) ∧
    ∀ j, I.toJSON = some j → j.privKey = s := by
  obtain ⟨buf, mpk, der, bufPub, h1, h2, h3, h4, hI⟩ :=
    createFromPrivKey_some _ _ _ _ h
  subst hI
  refine ⟨rfl, ?_⟩
  intro j hj
  simp only [PeerId.toJSON, jsToStringHex, Option.some.injEq] at hj
  rw [← hj]

/-- Witness for C10 at a concrete key record, derivation and digest. -/
theorem createFromPrivKey_privKey_is_input_string_witness :
    (({ id := [18, 4, 8, 0, 18, 0], privKey := some (BufOrStr.str "CAASAQE="),
        pubKey := some (BufOrStr.buf [8, 0, 18, 0]) } : PeerId).privKey
        = some (BufOrStr.str "CAASAQE=") ∧
      ∀ j, PeerId.toJSON ({ id := [18, 4, 8, 0, 18, 0],
                            privKey := some (BufOrStr.str "CAASAQE="),
                            pubKey := some (BufOrStr.buf [8, 0, 18, 0]) } : PeerId)
            = some j → j.privKey = "CAASAQE=") :=
  createFromPrivKey_privKey_is_input_string identityHash deriveEmpty "CAASAQE=" _ (by decide)
